import Mathlib

/-!
Shallow embedding of `cpp/src_prims/linalg/batched/gemv.h` (C++ namespace
`MLCommon::LinAlg::Batched`): the guarded vectorized loads, the block-wide
`dotProduct` reducer, the `gemvKernel` body, and the byte-alignment width
dispatch ladders in `gemv` / `gemvImplAx` / `gemvImplY`.

Flat device buffers are modelled as total functions `ℕ → T` over element
indices; the floating-point element type `DataT` is modelled as an arbitrary
commutative ring `T` with decidable equality (summation order across lanes is
unspecified in the source, so order-independent addition is the intended
reading); a per-lane register chunk (`TxN_t<DataT, VecLen>`) is a function
`ℕ → T` meaningful on `[0, VecLen)`.
-/

namespace BatchedGemv

variable {T : Type} [CommRing T] [DecidableEq T]

/-- The `_v.fill(c)` + `if (idx < n) _v.load(buf, base + idx)` pattern of
`gemvKernel`, seen by lane `t`: if the lane's scalar offset `t * V` is below
`n`, the whole `V`-wide chunk is loaded from `buf` starting at
`base + t * V`; otherwise the chunk keeps the fill value `0`. -/
def loadPad (V n : ℕ) (buf : ℕ → T) (base t : ℕ) : ℕ → T :=
  fun i => if t * V < n then buf (base + t * V + i) else 0

/-- The per-lane value fed into the block reduction by `dotProduct`:
`val = 0`, then `if (tid < len) for i < VecLen: val += x[i] * y[i]`.
Note the guard compares the thread id `t` itself (not `t * V`) with `len`. -/
def dotLaneVal (V : ℕ) (a x : ℕ → ℕ → T) (len t : ℕ) : T :=
  if t < len then ∑ i in Finset.range V, a t i * x t i else 0

/-- Model of `cub::BlockReduce<DataT, TPB>(temp).Sum(val)`: thread 0 receives
the sum over all `TPB` lanes; the return value on any other lane is
unspecified by cub, modelled here as that lane's own input. -/
def blockReduceSum (TPB : ℕ) (vals : ℕ → T) (tid : ℕ) : T :=
  if tid = 0 then ∑ t in Finset.range TPB, vals t else vals tid

/-- Return value of `dotProduct<DataT, IdxT, TPB, VecLen>` on lane `tid`:
the block reduction of the guarded per-lane partial sums; when `broadcast`
is true, lane 0 stores its reduced value to the shared slot `sDot[0]`, a
barrier is issued, and every lane reads that value back. -/
def dotProduct (TPB V : ℕ) (a x : ℕ → ℕ → T) (len : ℕ) (broadcast : Bool)
    (tid : ℕ) : T :=
  let dot := blockReduceSum TPB (dotLaneVal V a x len) tid
  if broadcast then blockReduceSum TPB (dotLaneVal V a x len) 0 else dot

/-- Contents of the shared scalar slot `sDot[0]` after `dotProduct` returns:
written (with lane 0's reduced value) exactly when `broadcast` is true. -/
def dotProductSDot (TPB V : ℕ) (a x : ℕ → ℕ → T) (len : ℕ)
    (broadcast : Bool) : Option T :=
  if broadcast then some (blockReduceSum TPB (dotLaneVal V a x len) 0)
  else none

/-- Shared-memory bytes `dotProduct` may touch, per its own doc comment and
body: the `BlockReduce::TempStorage` region, plus one `DataT` slot at offset
`sizeof(BlockReduceSmem)` only when `broadcast` is true. -/
def dotProductSmemBytes (tempStorageBytes elemBytes : ℕ)
    (broadcast : Bool) : ℕ :=
  if broadcast then tempStorageBytes + elemBytes else tempStorageBytes

/-- Dynamic shared memory allocated by `gemvImplY` for the kernel launch:
`size_t smemSize = sizeof(BlockReduceSmem)` — exactly the temporary-storage
size, with no extra scalar slot. -/
def gemvImplY_smemSize (tempStorageBytes : ℕ) : ℕ := tempStorageBytes

/-- The dot product `gemvKernel` computes for row `r` of batch element `b`
(as held by lane 0): `dotProduct` with `broadcast = false` over the guarded
loads of row `r` of `A_b` and of `x_b`. -/
def rowDot (TPB VA : ℕ) (A x : ℕ → T) (b m n r : ℕ) : T :=
  dotProduct TPB VA (fun t => loadPad VA n A (b * m * n + r * n) t)
    (fun t => loadPad VA n x (b * n) t) n false 0

/-- `_y.store(buf, off)`: overwrite the `V` elements `[off, off + V)` of the
flat buffer with the chunk `c`, leaving everything else unchanged. -/
def storeChunk (V : ℕ) (buf : ℕ → T) (off : ℕ) (c : ℕ → T) : ℕ → T :=
  fun k => if off ≤ k ∧ k < off + V then c (k - off) else buf k

/-- One iteration of the outer row sweep of `gemvKernel` at row offset `i`
for block `b`: the `VY` sub-row dot products are reduced, then lane 0 loads
the beta operand chunk — note the source reads it from `y`, the output
buffer, (`_z.load(y, blockIdx.x * m + i)`) and only when `beta != 0`,
`_z` otherwise keeping its zero fill — applies the epilogue
`op(alpha * dot + beta * zChunk[j], b * m + i + j)` and stores the `VY`-wide
result chunk to `y` at `b * m + i`. -/
def gemvBlockStep (TPB VA VY : ℕ) (A x : ℕ → T) (alpha beta : T)
    (m n b : ℕ) (op : T → ℕ → T) (y : ℕ → T) (i : ℕ) : ℕ → T :=
  let zChunk : ℕ → T := fun j => if beta ≠ 0 then y (b * m + i + j) else 0
  let yOut : ℕ → T := fun j =>
    op (alpha * rowDot TPB VA A x b m n (i + j) + beta * zChunk j)
      (b * m + i + j)
  storeChunk VY y (b * m + i) yOut

/-- The whole row sweep of `gemvKernel` for block `b`:
`for (i = 0; i < m; i += VY)`, i.e. `⌈m / VY⌉` iterations at offsets
`i = k * VY`. -/
def gemvBlockRun (TPB VA VY : ℕ) (A x : ℕ → T) (alpha beta : T)
    (m n b : ℕ) (op : T → ℕ → T) (y : ℕ → T) : ℕ → T :=
  (List.range ((m + VY - 1) / VY)).foldl
    (fun yc k => gemvBlockStep TPB VA VY A x alpha beta m n b op yc (k * VY))
    y

/-- The full `gemvKernel` launch: `batchSize` blocks, block `b` handling
batch element `b` (`blockIdx.x = b`). The parameter `z` is listed to mirror
the kernel signature; the kernel body never reads through it. -/
def gemvKernelRun (TPB VA VY : ℕ) (y A x z : ℕ → T) (alpha beta : T)
    (m n batchSize : ℕ) (op : T → ℕ → T) : ℕ → T :=
  (List.range batchSize).foldl
    (fun yc b => gemvBlockRun TPB VA VY A x alpha beta m n b op yc) y

/-- The device buffers visible to one `gemv` invocation. -/
structure GemvState (T : Type) where
  y : ℕ → T
  A : ℕ → T
  x : ℕ → T
  z : ℕ → T

/-- The launch as a transformer of the device state: only the `y` buffer is
updated; `A`, `x` and `z` are read-only. -/
def gemvLaunch (TPB VA VY : ℕ) (alpha beta : T) (m n batchSize : ℕ)
    (op : T → ℕ → T) (s : GemvState T) : GemvState T :=
  { s with
    y := gemvKernelRun TPB VA VY s.y s.A s.x s.z alpha beta m n batchSize op }

/-- Flat `y` indices written by lane `tid` of block `b` during one kernel
execution: stores happen only inside `if (threadIdx.x == 0)`, one `VY`-wide
chunk at `b * m + i` per outer iteration `i = k * VY`. -/
def gemvLaneWrites (VY m b tid : ℕ) : List ℕ :=
  if tid = 0 then
    (List.range ((m + VY - 1) / VY)).flatMap
      (fun k => (List.range VY).map (fun j => b * m + k * VY + j))
  else []

/-- Row indices `i + j` visited by the kernel's row sweep
(`for (i = 0; i < m; i += VY)` with `j < VY` sub-rows per step). -/
def gemvSweepRows (VY m : ℕ) : List ℕ :=
  (List.range ((m + VY - 1) / VY)).flatMap
    (fun k => (List.range VY).map (fun j => k * VY + j))

/-- The conditional ladder shared by `gemv` (against `n`) and `gemvImplAx`
(against `m`): with `s = sizeof(DataT)` and `bytes = d * s`, the first
branch whose C condition `w / sizeof(DataT) && bytes % w == 0` holds (for
`w = 16, 8, 4, 2`, then `1 / sizeof(DataT)` alone) selects element count
`w / s`; the trailing `else` selects `1`. -/
def vecLenLadder (s d : ℕ) : ℕ :=
  let bytes := d * s
  if 16 / s ≠ 0 ∧ bytes % 16 = 0 then 16 / s
  else if 8 / s ≠ 0 ∧ bytes % 8 = 0 then 8 / s
  else if 4 / s ≠ 0 ∧ bytes % 4 = 0 then 4 / s
  else if 2 / s ≠ 0 ∧ bytes % 2 = 0 then 2 / s
  else if 1 / s ≠ 0 then 1 / s
  else 1

/-- `VecLenAx` as selected by the ladder in `gemv`, against `n`. -/
def gemvVecLenAx (s n : ℕ) : ℕ := vecLenLadder s n

/-- `VecLenY` as selected by the ladder in `gemvImplAx`, against `m`. -/
def gemvVecLenY (s m : ℕ) : ℕ := vecLenLadder s m

/-- The selection rule as the specification words it, for comparison with
`vecLenLadder`: the largest byte width in the descending sequence
{16, 8, 4, 2, 1} such that `(d * sizeof(T)) mod width == 0`, expressed as
the element count `width / sizeof(T)`; byte width 1 always matches. -/
def vecLenSpecRule (s d : ℕ) : ℕ :=
  if d * s % 16 = 0 then 16 / s
  else if d * s % 8 = 0 then 8 / s
  else if d * s % 4 = 0 then 4 / s
  else if d * s % 2 = 0 then 2 / s
  else 1 / s

/-- The default epilogue `Nop`: the identity on the computed value. -/
def Nop : T → ℕ → T := fun v _ => v

/-! ## Helper lemmas -/

lemma sum_range_mul_chunks (f : ℕ → T) (K V : ℕ) :
    ∑ t in Finset.range K, ∑ i in Finset.range V, f (t * V + i)
      = ∑ c in Finset.range (K * V), f c := by
  induction K with
  | zero => simp
  | succ K ih =>
    rw [Finset.sum_range_succ, ih, Nat.succ_mul,
      ← Finset.sum_range_add_sum_Ico f (Nat.le_add_right (K * V) V),
      Finset.sum_Ico_eq_sum_range]
    simp

lemma range_flatMap_chunks (K V : ℕ) :
    (List.range K).flatMap (fun k => (List.range V).map (fun j => k * V + j))
      = List.range (K * V) := by
  induction K with
  | zero => simp
  | succ K ih =>
    rw [List.range_succ, List.flatMap_append, ih, Nat.succ_mul, List.range_add]
    simp [List.flatMap]

/-- The loop `for (i = 0; i < m; i += VY)` performs `(m + VY - 1) / VY`
iterations, and when `VY ∣ m` they cover exactly `m` rows. -/
lemma ceilDiv_mul_self (m VY : ℕ) (hVY : 0 < VY) (hdvd : VY ∣ m) :
    (m + VY - 1) / VY * VY = m := by
  obtain ⟨q, hq⟩ := hdvd
  subst hq
  have h1 : VY * q + VY - 1 = VY * q + (VY - 1) := by omega
  rw [h1, Nat.mul_add_div hVY, Nat.div_eq_of_lt (by omega), Nat.add_zero,
    Nat.mul_comm]

/-- On lane 0 the reducer returns the plain sum of the guarded per-lane
values, for either value of `broadcast`. -/
lemma dotProduct_lane0 (TPB V : ℕ) (a x : ℕ → ℕ → T) (len : ℕ)
    (broadcast : Bool) :
    dotProduct TPB V a x len broadcast 0
      = ∑ t in Finset.range TPB, dotLaneVal V a x len t := by
  simp [dotProduct, blockReduceSum]

/-- The kernel's per-row reduction computes the exact row dot product when
the column width divides `n` and the block has enough lanes to cover all
columns. -/
lemma rowDot_eq (TPB VA : ℕ) (A x : ℕ → T) (b m n r : ℕ)
    (hVA : 0 < VA) (hdvd : VA ∣ n) (hn : n ≤ TPB * VA) :
    rowDot TPB VA A x b m n r
      = ∑ c in Finset.range n, A (b * m * n + r * n + c) * x (b * n + c) := by
  have hq : n / VA * VA = n := Nat.div_mul_cancel hdvd
  have hqT : n / VA ≤ TPB := by
    have h1 : n / VA * VA ≤ TPB * VA := by rw [hq]; exact hn
    exact Nat.le_of_mul_le_mul_right h1 hVA
  have hiff : ∀ t : ℕ, t * VA < n ↔ t < n / VA := by
    intro t
    conv_lhs => rw [← hq]
    exact mul_lt_mul_right hVA
  unfold rowDot
  rw [dotProduct_lane0]
  have key : ∀ t : ℕ,
      dotLaneVal VA (fun t => loadPad VA n A (b * m * n + r * n) t)
        (fun t => loadPad VA n x (b * n) t) n t
        = if t < n / VA then
            ∑ i in Finset.range VA,
              A (b * m * n + r * n + (t * VA + i)) * x (b * n + (t * VA + i))
          else 0 := by
    intro t
    by_cases ht : t * VA < n
    · have ht2 : t < n := lt_of_le_of_lt (Nat.le_mul_of_pos_right t hVA) ht
      rw [dotLaneVal, if_pos ht2, if_pos ((hiff t).mp ht)]
      refine Finset.sum_congr rfl (fun i _ => ?_)
      simp only [loadPad, if_pos ht, Nat.add_assoc]
    · rw [if_neg (fun htq => ht ((hiff t).mpr htq)), dotLaneVal]
      split_ifs with h
      · exact Finset.sum_eq_zero (fun i _ => by simp [loadPad, ht])
      · rfl
  rw [Finset.sum_congr rfl (fun t _ => key t),
    ← Finset.sum_subset (Finset.range_subset.mpr hqT)
      (fun t _ htq => if_neg (fun h => htq (Finset.mem_range.mpr h))),
    Finset.sum_congr rfl
      (fun t ht => if_pos (Finset.mem_range.mp ht)),
    sum_range_mul_chunks (fun c => A (b * m * n + r * n + c) * x (b * n + c)),
    hq]

/-- Invariant of the first `t` iterations of the row sweep of block `b`:
indices outside `[b*m, b*m + t*VY)` still hold the initial buffer contents,
and the rows already swept hold
`op(alpha * rowDot + beta * y_initial, flat index)` — the beta operand being
the initial `y` value at that very position, since the source loads it from
`y` and each position is read before its own chunk is stored. -/
lemma gemvBlockRun_partial (TPB VA VY : ℕ) (A x : ℕ → T) (alpha beta : T)
    (m n b : ℕ) (op : T → ℕ → T) (y : ℕ → T) (t : ℕ) :
    (∀ idx, idx < b * m ∨ b * m + t * VY ≤ idx →
      (List.range t).foldl
        (fun yc k =>
          gemvBlockStep TPB VA VY A x alpha beta m n b op yc (k * VY)) y idx
        = y idx)
    ∧ ∀ r, r < t * VY →
      (List.range t).foldl
        (fun yc k =>
          gemvBlockStep TPB VA VY A x alpha beta m n b op yc (k * VY)) y
        (b * m + r)
        = op (alpha * rowDot TPB VA A x b m n r + beta * y (b * m + r))
            (b * m + r) := by
  induction t with
  | zero =>
    constructor
    · intro idx _; simp
    · intro r hr
      rw [Nat.zero_mul] at hr
      exact absurd hr (Nat.not_lt_zero r)
  | succ t ih =>
    obtain ⟨ih1, ih2⟩ := ih
    have hfold : ∀ w : ℕ → T,
        (List.range (t + 1)).foldl
          (fun yc k =>
            gemvBlockStep TPB VA VY A x alpha beta m n b op yc (k * VY)) w
          = gemvBlockStep TPB VA VY A x alpha beta m n b op
              ((List.range t).foldl
                (fun yc k =>
                  gemvBlockStep TPB VA VY A x alpha beta m n b op yc (k * VY))
                w)
              (t * VY) := by
      intro w
      rw [List.range_succ, List.foldl_append, List.foldl_cons, List.foldl_nil]
    have hstep : ∀ (w : ℕ → T) (i idx : ℕ),
        gemvBlockStep TPB VA VY A x alpha beta m n b op w i idx
          = if b * m + i ≤ idx ∧ idx < b * m + i + VY then
              op (alpha * rowDot TPB VA A x b m n (i + (idx - (b * m + i)))
                + beta * (if beta ≠ 0 then w (b * m + i + (idx - (b * m + i)))
                    else 0))
                (b * m + i + (idx - (b * m + i)))
            else w idx := by
      intro w i idx
      rfl
    constructor
    · intro idx hidx
      rw [hfold]
      have hout : ¬ (b * m + t * VY ≤ idx ∧ idx < b * m + t * VY + VY) := by
        rcases hidx with h | h
        · omega
        · rw [Nat.succ_mul] at h; omega
      rw [hstep, if_neg hout]
      refine ih1 idx ?_
      rcases hidx with h | h
      · exact Or.inl h
      · right; rw [Nat.succ_mul] at h; omega
    · intro r hr
      rw [Nat.succ_mul] at hr
      rw [hfold, hstep]
      by_cases hcase : r < t * VY
      · rw [if_neg (by omega)]
        exact ih2 r hcase
      · have hge : t * VY ≤ r := Nat.le_of_not_lt hcase
        rw [if_pos (by omega)]
        have e1 : t * VY + (b * m + r - (b * m + t * VY)) = r := by omega
        have e2 : b * m + t * VY + (b * m + r - (b * m + t * VY)) = b * m + r :=
          by omega
        rw [e1, e2]
        have hz : beta * (if beta ≠ 0 then
              (List.range t).foldl
                (fun yc k =>
                  gemvBlockStep TPB VA VY A x alpha beta m n b op yc (k * VY))
                y (b * m + r)
            else 0) = beta * y (b * m + r) := by
          by_cases hb : beta = 0
          · simp [hb]
          · rw [if_pos hb, ih1 (b * m + r) (Or.inr (by omega))]
        rw [hz]

/-- Net effect of one block's whole row sweep, for `VY ∣ m`: the block's own
slice of `y` gets the epilogue values, everything else is untouched. -/
lemma gemvBlockRun_spec (TPB VA VY : ℕ) (A x : ℕ → T) (alpha beta : T)
    (m n b : ℕ) (op : T → ℕ → T) (y : ℕ → T)
    (hVY : 0 < VY) (hdvd : VY ∣ m) :
    (∀ r, r < m →
      gemvBlockRun TPB VA VY A x alpha beta m n b op y (b * m + r)
        = op (alpha * rowDot TPB VA A x b m n r + beta * y (b * m + r))
            (b * m + r))
    ∧ ∀ idx, idx < b * m ∨ b * m + m ≤ idx →
        gemvBlockRun TPB VA VY A x alpha beta m n b op y idx = y idx := by
  have hK : (m + VY - 1) / VY * VY = m := ceilDiv_mul_self m VY hVY hdvd
  obtain ⟨h1, h2⟩ :=
    gemvBlockRun_partial TPB VA VY A x alpha beta m n b op y
      ((m + VY - 1) / VY)
  constructor
  · intro r hr
    unfold gemvBlockRun
    exact h2 r (by rw [hK]; exact hr)
  · intro idx hidx
    unfold gemvBlockRun
    exact h1 idx (by rw [hK]; exact hidx)

/-- Invariant of the first `g` blocks of the launch: blocks `b < g` have
produced their slice of outputs, and indices at or above `g * m` are
untouched. -/
lemma gemvKernelRun_partial (TPB VA VY : ℕ) (y A x : ℕ → T) (alpha beta : T)
    (m n : ℕ) (op : T → ℕ → T) (hVY : 0 < VY) (hdvd : VY ∣ m) (g : ℕ) :
    (∀ b r, b < g → r < m →
      (List.range g).foldl
        (fun yc b => gemvBlockRun TPB VA VY A x alpha beta m n b op yc) y
        (b * m + r)
        = op (alpha * rowDot TPB VA A x b m n r + beta * y (b * m + r))
            (b * m + r))
    ∧ ∀ idx, g * m ≤ idx →
      (List.range g).foldl
        (fun yc b => gemvBlockRun TPB VA VY A x alpha beta m n b op yc) y idx
        = y idx := by
  induction g with
  | zero =>
    constructor
    · intro b r hb _
      exact absurd hb (Nat.not_lt_zero b)
    · intro idx _; simp
  | succ g ih =>
    obtain ⟨ih1, ih2⟩ := ih
    have hfold : ∀ w : ℕ → T,
        (List.range (g + 1)).foldl
          (fun yc b => gemvBlockRun TPB VA VY A x alpha beta m n b op yc) w
          = gemvBlockRun TPB VA VY A x alpha beta m n g op
              ((List.range g).foldl
                (fun yc b => gemvBlockRun TPB VA VY A x alpha beta m n b op yc)
                w) := by
      intro w
      rw [List.range_succ, List.foldl_append, List.foldl_cons, List.foldl_nil]
    obtain ⟨bs1, bs2⟩ :=
      gemvBlockRun_spec TPB VA VY A x alpha beta m n g op
        ((List.range g).foldl
          (fun yc b => gemvBlockRun TPB VA VY A x alpha beta m n b op yc) y)
        hVY hdvd
    constructor
    · intro b r hb hr
      rw [hfold]
      by_cases hbg : b < g
      · have hlt : b * m + r < g * m := by
          have h1 : (b + 1) * m ≤ g * m := Nat.mul_le_mul_right m hbg
          rw [Nat.succ_mul] at h1; omega
        rw [bs2 _ (Or.inl hlt)]
        exact ih1 b r hbg hr
      · have hbeq : b = g := by omega
        subst hbeq
        rw [bs1 r hr, ih2 (b * m + r) (by omega)]
    · intro idx hidx
      rw [Nat.succ_mul] at hidx
      rw [hfold, bs2 idx (Or.inr (by omega))]
      exact ih2 idx (by omega)

/-- Full functional characterization of the launch: the selected widths
divide the dimensions, the block covers all columns, and then every output
element at flat index `b * m + r` holds
`op(alpha * (row r of A_b · x_b) + beta * (initial y at that index))`,
while indices at or beyond `batchSize * m` are untouched. The `z` buffer
does not occur on the right-hand side at all. -/
lemma gemvKernelRun_spec (TPB VA VY : ℕ) (y A x z : ℕ → T) (alpha beta : T)
    (m n B : ℕ) (op : T → ℕ → T)
    (hVY : 0 < VY) (hdvd : VY ∣ m)
    (hVA : 0 < VA) (hdvdA : VA ∣ n) (hn : n ≤ TPB * VA) :
    (∀ b r, b < B → r < m →
      gemvKernelRun TPB VA VY y A x z alpha beta m n B op (b * m + r)
        = op (alpha *
              (∑ c in Finset.range n, A (b * m * n + r * n + c) * x (b * n + c))
            + beta * y (b * m + r)) (b * m + r))
    ∧ ∀ idx, B * m ≤ idx →
        gemvKernelRun TPB VA VY y A x z alpha beta m n B op idx = y idx := by
  obtain ⟨h1, h2⟩ :=
    gemvKernelRun_partial TPB VA VY y A x alpha beta m n op hVY hdvd B
  constructor
  · intro b r hb hr
    unfold gemvKernelRun
    rw [h1 b r hb hr, rowDot_eq TPB VA A x b m n r hVA hdvdA hn]
  · intro idx h
    unfold gemvKernelRun
    exact h2 idx h

lemma dvd16_cases (s : ℕ) (hs : s ∣ 16) :
    s = 1 ∨ s = 2 ∨ s = 4 ∨ s = 8 ∨ s = 16 := by
  have h1 : 1 ≤ s := Nat.pos_of_dvd_of_pos hs (by norm_num)
  have h2 : s ≤ 16 := Nat.le_of_dvd (by norm_num) hs
  interval_cases s <;> revert hs <;> decide

/-- For every element size occurring in a valid C++ instantiation with
`sizeof(DataT) ∈ {1, 2, 4, 8, 16}`, the source ladder agrees with the
spec's descending-byte-width rule. -/
lemma vecLenLadder_eq_specRule (s d : ℕ) (hs : s ∣ 16) :
    vecLenLadder s d = vecLenSpecRule s d := by
  rcases dvd16_cases s hs with h | h | h | h | h <;> subst h <;>
    simp only [vecLenLadder, vecLenSpecRule] <;> norm_num <;>
    split_ifs <;> omega

/-- For such element sizes the selected element count divides the dimension
it was selected against. -/
lemma vecLenLadder_dvd (s d : ℕ) (hs : s ∣ 16) : vecLenLadder s d ∣ d := by
  rcases dvd16_cases s hs with h | h | h | h | h <;> subst h <;>
    simp only [vecLenLadder] <;> norm_num <;> split_ifs <;> omega

/-- The ladder always selects a positive element count for such sizes. -/
lemma vecLenLadder_pos (s d : ℕ) (hs : s ∣ 16) : 0 < vecLenLadder s d := by
  rcases dvd16_cases s hs with h | h | h | h | h <;> subst h <;>
    simp only [vecLenLadder] <;> norm_num <;> split_ifs <;> omega

/-- With `VY ∣ m` the row sweep enumerates exactly the rows `0 .. m-1`. -/
lemma gemvSweepRows_eq_range (VY m : ℕ) (hVY : 0 < VY) (hdvd : VY ∣ m) :
    gemvSweepRows VY m = List.range m := by
  rw [gemvSweepRows, range_flatMap_chunks, ceilDiv_mul_self m VY hVY hdvd]

/-! ## Claim theorems -/

/-- Claim C4, counterexample: at element size 3 and dimension 1 (3 bytes) the
spec rule picks byte width 1 and thus element count `1 / 3 = 0`, while the
source ladder (whose width-1 rung is guarded by the false condition
`1 / sizeof(DataT)`) falls through to the trailing `else` and selects
element count 1. -/
theorem vecLen_c4_counterexample :
    gemvVecLenAx 3 1 = 1 ∧ vecLenSpecRule 3 1 = 0 ∧
      gemvVecLenAx 3 1 ≠ vecLenSpecRule 3 1 := by
  decide

/-- Claim C4 (amended): for every element size `sizeof(T)` dividing 16 —
which covers every actual instantiation — and all dimensions `m`, `n`, the
dispatcher selects `VecLenAx` as the largest byte width in {16, 8, 4, 2, 1}
with `(n * sizeof(T)) mod width == 0` expressed as `width / sizeof(T)`, and
`VecLenY` by the identical rule against `m * sizeof(T)`; for element sizes
not dividing 16 the ladder instead requires `width ≥ sizeof(T)` and falls
back to element count 1 in the trailing `else`. -/
theorem vecLen_c4_ladder_matches_spec (s m n : ℕ) (hs : s ∣ 16) :
    gemvVecLenAx s n = vecLenSpecRule s n
      ∧ gemvVecLenY s m = vecLenSpecRule s m :=
  ⟨vecLenLadder_eq_specRule s n hs, vecLenLadder_eq_specRule s m hs⟩

/-- Claim C4 witness: 4-byte elements; `n = 8` (32 bytes) selects byte width
16, element count 4; `m = 3` (12 bytes) falls back to byte width 4, element
count 1 — matching the spec's worked examples. -/
theorem vecLen_c4_witness :
    (gemvVecLenAx 4 8 = vecLenSpecRule 4 8 ∧ gemvVecLenY 4 3 = vecLenSpecRule 4 3)
      ∧ gemvVecLenAx 4 8 = 4 ∧ gemvVecLenY 4 3 = 1 :=
  ⟨⟨(vecLen_c4_ladder_matches_spec 4 3 8 (by norm_num)).1,
    (vecLen_c4_ladder_matches_spec 4 3 8 (by norm_num)).2⟩, by decide, by decide⟩

/-- Claim C10, counterexample: the claim's universal quantification over the
element size fails — at `sizeof(T) = 3`, `n = 16` (48 bytes) the ladder
picks byte width 16 and element count `16 / 3 = 5`, and 5 does not divide
16, so the claimed divisibility (and with it tail-free row coverage) does
not hold for every element size. -/
theorem vecLen_c10_counterexample :
    gemvVecLenAx 3 16 = 5 ∧ ¬ (gemvVecLenAx 3 16 ∣ 16) := by
  decide

/-- Claim C10 (amended): for every element size dividing 16 — every actual
instantiation — the selected `VecLenY` divides `m` and `VecLenAx` divides
`n`, and consequently the kernel's row sweep entered through `gemv` visits
exactly the row indices `0 .. m-1`: no access to `A` or `y` ever uses a row
index `≥ m`. -/
theorem vecLen_c10_divides_and_rows (s m n : ℕ) (hs : s ∣ 16) :
    gemvVecLenY s m ∣ m ∧ gemvVecLenAx s n ∣ n
      ∧ gemvSweepRows (gemvVecLenY s m) m = List.range m :=
  ⟨vecLenLadder_dvd s m hs, vecLenLadder_dvd s n hs,
    gemvSweepRows_eq_range _ m (vecLenLadder_pos s m hs)
      (vecLenLadder_dvd s m hs)⟩

/-- Claim C10 witness: 8-byte elements, `m = 3`, `n = 4`: `VecLenY = 1`
divides 3, `VecLenAx = 2` divides 4, and the sweep enumerates rows 0, 1, 2. -/
theorem vecLen_c10_witness :
    gemvVecLenY 8 3 ∣ 3 ∧ gemvVecLenAx 8 4 ∣ 4
      ∧ gemvSweepRows (gemvVecLenY 8 3) 3 = List.range 3 :=
  vecLen_c10_divides_and_rows 8 3 4 (by norm_num)

/-- Claim C8: with `broadcast = false` the reducer returns the complete
group dot product (the sum of all lanes' guarded partial values) on lane 0
and leaves the shared scalar slot unwritten; with `broadcast = true` lane 0
writes the reduced scalar to the shared slot and every lane returns that
same complete dot product. -/
theorem dotProduct_c8_broadcast (TPB V len : ℕ) (a x : ℕ → ℕ → T) :
    dotProduct TPB V a x len false 0
        = ∑ t in Finset.range TPB, dotLaneVal V a x len t
      ∧ (∀ tid, dotProduct TPB V a x len true tid
          = ∑ t in Finset.range TPB, dotLaneVal V a x len t)
      ∧ dotProductSDot TPB V a x len true
          = some (∑ t in Finset.range TPB, dotLaneVal V a x len t)
      ∧ dotProductSDot TPB V a x len false = none := by
  refine ⟨dotProduct_lane0 TPB V a x len false, fun tid => ?_, ?_, rfl⟩
  · simp [dotProduct, blockReduceSum]
  · simp [dotProductSDot, blockReduceSum]

/-- Claim C9: the kernel invokes the reducer only with `broadcast = false`
(the per-row reduction is exactly a `broadcast = false` call), the launch in
`gemvImplY` allocates dynamic shared memory of exactly the reducer's
temporary-storage size with no extra scalar slot, and with
`broadcast = false` the reducer's shared-memory footprint never exceeds the
temporary-storage region, so the allocation suffices. -/
theorem gemv_c9_smem_sizing (tempStorageBytes elemBytes TPB VA : ℕ)
    (A x : ℕ → T) (b m n r : ℕ) :
    rowDot TPB VA A x b m n r
        = dotProduct TPB VA (fun t => loadPad VA n A (b * m * n + r * n) t)
            (fun t => loadPad VA n x (b * n) t) n false 0
      ∧ gemvImplY_smemSize tempStorageBytes = tempStorageBytes
      ∧ dotProductSmemBytes tempStorageBytes elemBytes false
          ≤ gemvImplY_smemSize tempStorageBytes
      ∧ dotProductSmemBytes tempStorageBytes elemBytes true
          = gemvImplY_smemSize tempStorageBytes + elemBytes :=
  ⟨rfl, rfl, le_refl _, rfl⟩

/-- Claim C1, evidence of the code bug at a concrete failing input:
`m = n = batchSize = 1`, `A = [0]`, `x = [0]`, `alpha = 0`, `beta = 1`,
`z = [5]`, prior `y = [7]`, identity epilogue. The kernel leaves
`y[0] = 7`: the term scaled by `beta` is the prior contents of the output
buffer `y` (the source executes `_z.load(y, blockIdx.x * m + i)`), whereas
the claim — and the source's own doc comment,
`custom epilogue after computing alpha * Ax + beta * z` — requires
`y[0] = beta * z[0] = 5`. -/
theorem gemv_c1_failing_input :
    gemvKernelRun 4 1 1 (fun _ => (7 : ℤ)) (fun _ => 0) (fun _ => 0)
        (fun _ => 5) 0 1 1 1 1 Nop 0 = 7
      ∧ (7 : ℤ) ≠ 5 := by
  decide

/-- Claim C2: the `z` argument never influences the kernel result (it is
never dereferenced), for every `beta`; and each output element equals
`op(alpha * (row r of A_b · x_b) + beta * y_prior)` — the operand scaled by
`beta` is loaded from the output buffer `y` itself. -/
theorem gemv_c2_beta_operand_is_prior_y (TPB VA VY : ℕ)
    (y A x z zAlt : ℕ → T) (alpha beta : T) (m n B : ℕ) (op : T → ℕ → T)
    (hVY : 0 < VY) (hdvdY : VY ∣ m) (hVA : 0 < VA) (hdvdA : VA ∣ n)
    (hn : n ≤ TPB * VA) :
    gemvKernelRun TPB VA VY y A x z alpha beta m n B op
        = gemvKernelRun TPB VA VY y A x zAlt alpha beta m n B op
      ∧ ∀ b r, b < B → r < m →
          gemvKernelRun TPB VA VY y A x z alpha beta m n B op (b * m + r)
            = op (alpha * (∑ c in Finset.range n,
                  A (b * m * n + r * n + c) * x (b * n + c))
                + beta * y (b * m + r)) (b * m + r) :=
  ⟨rfl,
    (gemvKernelRun_spec TPB VA VY y A x z alpha beta m n B op
      hVY hdvdY hVA hdvdA hn).1⟩

/-- Claim C2 witness: a 1×1 system with `alpha = beta = 1`, `A = [2]`,
`x = [4]`, prior `y = [3]`: changing `z` from 100 to 200 does not change the
result, and `y[0]` becomes `1*(2*4) + 1*3 = 11`. -/
theorem gemv_c2_witness :
    gemvKernelRun 2 1 1 (fun _ => (3 : ℤ)) (fun _ => 2) (fun _ => 4)
        (fun _ => 100) 1 1 1 1 1 Nop
      = gemvKernelRun 2 1 1 (fun _ => (3 : ℤ)) (fun _ => 2) (fun _ => 4)
        (fun _ => 200) 1 1 1 1 1 Nop
      ∧ gemvKernelRun 2 1 1 (fun _ => (3 : ℤ)) (fun _ => 2) (fun _ => 4)
        (fun _ => 100) 1 1 1 1 1 Nop 0 = 11 :=
  ⟨(gemv_c2_beta_operand_is_prior_y 2 1 1 (fun _ => (3 : ℤ)) (fun _ => 2)
      (fun _ => 4) (fun _ => 100) (fun _ => 200) 1 1 1 1 1 Nop
      (by norm_num) (by norm_num) (by norm_num) (by norm_num)
      (by norm_num)).1,
    by decide⟩

/-- Claim C3: with `beta = 0` the kernel never reads `z` — indeed the result
is independent of `z` for every `beta`, so supplying an invalid `z` cannot
change (or fault) the computation — and each output element equals the
epilogue applied to `alpha` times the row dot product. -/
theorem gemv_c3_beta_zero_ignores_z (TPB VA VY : ℕ) (y A x : ℕ → T)
    (alpha : T) (m n B : ℕ) (op : T → ℕ → T)
    (hVY : 0 < VY) (hdvdY : VY ∣ m) (hVA : 0 < VA) (hdvdA : VA ∣ n)
    (hn : n ≤ TPB * VA) :
    (∀ (beta : T) (z zBad : ℕ → T),
        gemvKernelRun TPB VA VY y A x z alpha beta m n B op
          = gemvKernelRun TPB VA VY y A x zBad alpha beta m n B op)
      ∧ ∀ (z : ℕ → T) (b r : ℕ), b < B → r < m →
          gemvKernelRun TPB VA VY y A x z alpha 0 m n B op (b * m + r)
            = op (alpha * (∑ c in Finset.range n,
                A (b * m * n + r * n + c) * x (b * n + c))) (b * m + r) := by
  refine ⟨fun beta z zBad => rfl, fun z b r hb hr => ?_⟩
  rw [(gemvKernelRun_spec TPB VA VY y A x z alpha 0 m n B op
      hVY hdvdY hVA hdvdA hn).1 b r hb hr, zero_mul, add_zero]

/-- Claim C3 witness: `alpha = 5`, `beta = 0`, `A = [2]`, `x = [4]`, prior
`y = [9]`: two different `z` buffers give identical results and
`y[0] = 5 * (2*4) = 40`. -/
theorem gemv_c3_witness :
    (gemvKernelRun 2 1 1 (fun _ => (9 : ℤ)) (fun _ => 2) (fun _ => 4)
        (fun _ => 100) 5 0 1 1 1 Nop
      = gemvKernelRun 2 1 1 (fun _ => (9 : ℤ)) (fun _ => 2) (fun _ => 4)
        (fun _ => 200) 5 0 1 1 1 Nop)
      ∧ gemvKernelRun 2 1 1 (fun _ => (9 : ℤ)) (fun _ => 2) (fun _ => 4)
        (fun _ => 100) 5 0 1 1 1 Nop 0 = 40 :=
  ⟨(gemv_c3_beta_zero_ignores_z 2 1 1 (fun _ => (9 : ℤ)) (fun _ => 2)
      (fun _ => 4) 5 1 1 1 Nop (by norm_num) (by norm_num) (by norm_num)
      (by norm_num) (by norm_num)).1 0 (fun _ => 100) (fun _ => 200),
    by decide⟩

/-- Claim C5: in the reducer, under the zero padding that the kernel's
fill-then-guarded-load establishes (every lane whose scalar range starts at
or beyond `len` holds an all-zero `a` chunk) and with the chunk width
dividing `len` (which the dispatcher guarantees for the kernel's calls),
lanes fully outside `[0, len)` contribute 0; the group-wide reduction
yields on lane 0 the sum of all lanes' values; and that value is exactly
the sum of the local partial sums `Σ chunk_a[i] * chunk_x[i]` of the lanes
whose scalar index ranges lie within `[0, len)`. -/
theorem dotProduct_c5_lane_contributions (TPB V len : ℕ) (a x : ℕ → ℕ → T)
    (hV : 0 < V) (hdvd : V ∣ len)
    (hpad : ∀ t, len ≤ t * V → ∀ i, i < V → a t i = 0) :
    (∀ t, len ≤ t * V → dotLaneVal V a x len t = 0)
      ∧ dotProduct TPB V a x len false 0
          = ∑ t in Finset.range TPB, dotLaneVal V a x len t
      ∧ dotProduct TPB V a x len false 0
          = ∑ t in (Finset.range TPB).filter (fun t => t * V + V ≤ len),
              ∑ i in Finset.range V, a t i * x t i := by
  have hzero : ∀ t, len ≤ t * V → dotLaneVal V a x len t = 0 := by
    intro t ht
    rw [dotLaneVal]
    split_ifs with h
    · exact Finset.sum_eq_zero fun i hi => by
        rw [hpad t ht i (Finset.mem_range.mp hi), zero_mul]
    · rfl
  refine ⟨hzero, dotProduct_lane0 TPB V a x len false, ?_⟩
  rw [dotProduct_lane0, Finset.sum_filter]
  refine Finset.sum_congr rfl fun t _ => ?_
  by_cases hin : t * V + V ≤ len
  · have h1 : t ≤ t * V := Nat.le_mul_of_pos_right t hV
    rw [if_pos hin, dotLaneVal, if_pos (by omega)]
  · rw [if_neg hin]
    refine hzero t ?_
    obtain ⟨q, hq⟩ := hdvd
    subst hq
    have hc1 : V * q = q * V := Nat.mul_comm V q
    have hc2 : V * t = t * V := Nat.mul_comm V t
    have hqt : q ≤ t := by
      by_contra hqt
      push_neg at hqt
      have h2 : (t + 1) * V ≤ q * V := Nat.mul_le_mul_right V hqt
      rw [Nat.succ_mul] at h2
      omega
    have h3 : V * q ≤ V * t := Nat.mul_le_mul_left V hqt
    omega

/-- Claim C5 witness: width 2, `len = 2`, four lanes; only lane 0 lies
within `[0, len)` and holds data `[1, 2]` against an all-ones `x`; lanes 1–3
are zero padded, and the reduction on lane 0 equals the sum over exactly the
in-range lanes. -/
theorem dotProduct_c5_witness :
    dotProduct 4 2 (fun t i => if t * 2 < 2 then (i : ℤ) + 1 else 0)
        (fun _ _ => 1) 2 false 0
      = ∑ t in (Finset.range 4).filter (fun t => t * 2 + 2 ≤ 2),
          ∑ i in Finset.range 2,
            (fun t i => if t * 2 < 2 then (i : ℤ) + 1 else 0) t i
              * (fun _ _ => (1 : ℤ)) t i :=
  (dotProduct_c5_lane_contributions 4 2 2
      (fun t i => if t * 2 < 2 then (i : ℤ) + 1 else 0) (fun _ _ => 1)
      (by norm_num) (by norm_num)
      (by
        intro t ht i _
        have hnot : ¬ (t * 2 < 2) := by omega
        simp [hnot])).2.2

/-- Claim C6: the spec's concrete instances. With
`m = n = batchSize = 1`, `alpha = 1`, `beta = 0` and widths as the
dispatcher selects them for 8-byte elements (`VecLenAx = VecLenY = 1`), the
single output is `A[0] * x[0]` for all contents of `A` and `x`; and with
`m = n = 2`, `A = [[1,2],[3,4]]`, `x = [1,1]`, `alpha = 1`, `beta = 0` and
the widths the dispatcher selects for 8-byte elements
(`VecLenAx = VecLenY = 2`), the output is `y = [3, 7]`. -/
theorem gemv_c6_concrete_instances :
    (∀ a0 x0 : ℤ,
      gemvKernelRun 2 1 1 (fun _ => 0) (fun _ => a0) (fun _ => x0)
        (fun _ => 0) 1 0 1 1 1 Nop 0 = a0 * x0)
      ∧ gemvKernelRun 2 2 2 (fun _ => (0 : ℤ))
          (fun c => if c = 0 then 1 else if c = 1 then 2 else
            if c = 2 then 3 else 4)
          (fun _ => 1) (fun _ => 0) 1 0 2 2 1 Nop 0 = 3
      ∧ gemvKernelRun 2 2 2 (fun _ => (0 : ℤ))
          (fun c => if c = 0 then 1 else if c = 1 then 2 else
            if c = 2 then 3 else 4)
          (fun _ => 1) (fun _ => 0) 1 0 2 2 1 Nop 1 = 7 := by
  refine ⟨fun a0 x0 => ?_, by decide, by decide⟩
  have h := (gemvKernelRun_spec 2 1 1 (fun _ => (0 : ℤ)) (fun _ => a0)
      (fun _ => x0) (fun _ => 0) 1 0 1 1 1 Nop (by norm_num) (by norm_num)
      (by norm_num) (by norm_num) (by norm_num)).1 0 0 (by norm_num)
      (by norm_num)
  simpa [Nop] using h

/-- Claim C7: only lane 0 of a group performs writes to `y`; the group for
batch element `b` writes exactly the slice `[b*m, (b+1)*m)`, each element
exactly once (its write list is that range with no duplicates); distinct
groups write disjoint slices; and the launch leaves `A`, `x` and `z`
unmodified. -/
theorem gemv_c7_write_discipline (VY m b bOther : ℕ)
    (hVY : 0 < VY) (hdvd : VY ∣ m) :
    (∀ tid, tid ≠ 0 → gemvLaneWrites VY m b tid = [])
      ∧ gemvLaneWrites VY m b 0 = (List.range m).map (fun r => b * m + r)
      ∧ (gemvLaneWrites VY m b 0).Nodup
      ∧ (b ≠ bOther → ∀ idx, idx ∈ gemvLaneWrites VY m b 0 →
          idx ∉ gemvLaneWrites VY m bOther 0)
      ∧ ∀ (s : GemvState T) (TPB VA n B : ℕ) (alpha beta : T)
          (op : T → ℕ → T),
          (gemvLaunch TPB VA VY alpha beta m n B op s).A = s.A
            ∧ (gemvLaunch TPB VA VY alpha beta m n B op s).x = s.x
            ∧ (gemvLaunch TPB VA VY alpha beta m n B op s).z = s.z := by
  have hlist : ∀ bb : ℕ,
      gemvLaneWrites VY m bb 0 = (List.range m).map (fun r => bb * m + r) := by
    intro bb
    rw [gemvLaneWrites, if_pos rfl]
    have hfun : (fun k => (List.range VY).map (fun j => bb * m + k * VY + j))
        = fun k => ((List.range VY).map (fun j => k * VY + j)).map
            (fun c => bb * m + c) := by
      funext k
      rw [List.map_map]
      have hcomp : ((fun c => bb * m + c) ∘ fun j => k * VY + j)
          = fun j => bb * m + k * VY + j := by
        funext j
        simp [Function.comp, Nat.add_assoc]
      rw [hcomp]
    rw [hfun, ← List.map_flatMap, range_flatMap_chunks,
      ceilDiv_mul_self m VY hVY hdvd]
  refine ⟨fun tid htid => by rw [gemvLaneWrites, if_neg htid], hlist b,
    ?_, ?_, fun s TPB VA n B alpha beta op => ⟨rfl, rfl, rfl⟩⟩
  · rw [hlist b]
    exact (List.nodup_range m).map (fun u v h => by omega)
  · intro hne idx h1 h2
    rw [hlist b] at h1
    rw [hlist bOther] at h2
    simp only [List.mem_map, List.mem_range] at h1 h2
    obtain ⟨r1, hr1, he1⟩ := h1
    obtain ⟨r2, hr2, he2⟩ := h2
    rcases Nat.lt_or_ge b bOther with hlt | hge
    · have hmul : (b + 1) * m ≤ bOther * m := Nat.mul_le_mul_right m hlt
      rw [Nat.succ_mul] at hmul
      omega
    · have hlt2 : bOther < b := by omega
      have hmul : (bOther + 1) * m ≤ b * m := Nat.mul_le_mul_right m hlt2
      rw [Nat.succ_mul] at hmul
      omega

/-- Claim C7 witness: `VY = 2`, `m = 4`: lane 1 writes nothing, and lane 0
of group 0 writes exactly indices 0, 1, 2, 3. -/
theorem gemv_c7_witness :
    gemvLaneWrites 2 4 0 1 = []
      ∧ gemvLaneWrites 2 4 0 0 = (List.range 4).map (fun r => 0 * 4 + r) :=
  ⟨(@gemv_c7_write_discipline ℤ _ _ 2 4 0 1 (by norm_num) (by norm_num)).1 1
      (by norm_num),
    (@gemv_c7_write_discipline ℤ _ _ 2 4 0 1 (by norm_num) (by norm_num)).2.1⟩

end BatchedGemv
